import Mathlib

/-!
Shallow embedding of the `bite` binary serialization library (src/lib.rs).

Streams are modelled as lists of bytes (`List Nat`, each element < 256).
A Rust `Read` source is a byte list consumed from the front; a decode
returns either the decoded value together with the unconsumed rest of the
stream, an `io::Error` (modelled by its `ErrorKind`, which is all the code
ever constructs), or a process abort (`crash`, modelling a panicking
`unwrap`).  An encode with a `Cursor`/`Vec` writer (the writer every test
in the repository uses, which accepts all bytes offered) is modelled as a
pure function to the list of bytes written; short-accepting writers are
modelled separately by `CapWriter` for the claims that concern them.

The platform is taken to be 64-bit, so `size_of::<usize>() = 8`.
-/

/-- The error kinds the library's decode paths construct.
`unexpectedEof` models `io::ErrorKind::UnexpectedEof` (raised by
`read_exact` on a short stream); `notFound` models
`io::Error::from(io::ErrorKind::NotFound)` (raised by the derived enum
decode); neither carries any payload, exactly as in the source. -/
inductive IOErr where
  | unexpectedEof : IOErr
  | notFound : IOErr
deriving DecidableEq, Repr

/-- Result of running a decode on a byte stream: success with the value
and the unconsumed rest, an `io::Error`, or a process abort (a Rust
panic, e.g. from `Result::unwrap`). -/
inductive DResult (α : Type) where
  | ok : α → List Nat → DResult α
  | err : IOErr → DResult α
  | crash : DResult α
deriving DecidableEq, Repr

/-- `v.to_be_bytes()` for an integer of `n` bytes: big-endian byte list,
most significant byte first (byte values `< 256` by construction). -/
def toBEBytes : Nat → Nat → List Nat
  | 0, _ => []
  | n + 1, v => toBEBytes n (v / 256) ++ [v % 256]

/-- `<T>::from_be_bytes(buffer)`: reassemble a big-endian byte list into
an integer. -/
def fromBEBytes (l : List Nat) : Nat :=
  l.foldl (fun acc b => acc * 256 + b) 0

/-- `reader.read_exact(&mut buffer)` for a buffer of `k` bytes: succeed
with exactly `k` bytes if the stream holds at least that many, otherwise
fail with `UnexpectedEof`. -/
def readExact (k : Nat) (s : List Nat) : DResult (List Nat) :=
  if k ≤ s.length then .ok (s.take k) (s.drop k) else .err .unexpectedEof

/-- Encode of an `n`-byte unsigned integer (`impl_encode_number`,
lib.rs:79-91) with a writer that accepts every byte:
`writer.write(&self.to_be_bytes())`. -/
def numEncode (n v : Nat) : List Nat :=
  toBEBytes n v

/-- Decode of an `n`-byte unsigned integer (`impl_decode_number`,
lib.rs:113-127): `read_exact` an `n`-byte buffer, then `from_be_bytes`. -/
def numDecode (n : Nat) (s : List Nat) : DResult Nat :=
  match readExact n s with
  | .ok buf rest => .ok (fromBEBytes buf) rest
  | .err e => .err e
  | .crash => .crash

/-- `0x80 ≤ b ≤ 0xBF`: a UTF-8 continuation byte. -/
def isCont (b : Nat) : Bool :=
  0x80 ≤ b && b ≤ 0xBF

/-- Validity of a byte list as UTF-8, as checked by Rust's
`String::from_utf8` (RFC 3629: no overlong forms, no surrogates, no
code points above U+10FFFF). -/
def isValidUtf8 : List Nat → Bool
  | [] => true
  | b :: rest =>
    if b ≤ 0x7F then isValidUtf8 rest
    else if b ≤ 0xC1 then false
    else if b ≤ 0xDF then
      match rest with
      | c1 :: r => isCont c1 && isValidUtf8 r
      | [] => false
    else if b ≤ 0xEF then
      match rest with
      | c1 :: c2 :: r =>
        (if b = 0xE0 then decide (0xA0 ≤ c1 ∧ c1 ≤ 0xBF)
         else if b = 0xED then decide (0x80 ≤ c1 ∧ c1 ≤ 0x9F)
         else isCont c1) && isCont c2 && isValidUtf8 r
      | _ => false
    else if b ≤ 0xF4 then
      match rest with
      | c1 :: c2 :: c3 :: r =>
        (if b = 0xF0 then decide (0x90 ≤ c1 ∧ c1 ≤ 0xBF)
         else if b = 0xF4 then decide (0x80 ≤ c1 ∧ c1 ≤ 0x8F)
         else isCont c1) && isCont c2 && isCont c3 && isValidUtf8 r
      | _ => false
    else false

/-- `impl Encode for String` (lib.rs:104-111) with an accept-all writer.
A Rust `String` is modelled by its UTF-8 byte list `s`; the encode writes
`self.len()` (byte count) as a `usize` (8 bytes big-endian), then the raw
bytes `self.as_bytes()`. -/
def stringEncode (s : List Nat) : List Nat :=
  numEncode 8 s.length ++ s

/-- `impl Decode for String` (lib.rs:143-154): `read_exact` an 8-byte
`usize` header, `read_exact` that many body bytes, then
`String::from_utf8(buffer_body).unwrap()` — the `unwrap` aborts the
process when the bytes are not valid UTF-8, which `crash` models. -/
def stringDecode (s : List Nat) : DResult (List Nat) :=
  match readExact 8 s with
  | .ok hdr rest =>
    match readExact (fromBEBytes hdr) rest with
    | .ok body rest2 => if isValidUtf8 body then .ok body rest2 else .crash
    | .err e => .err e
    | .crash => .crash
  | .err e => .err e
  | .crash => .crash

/-- `impl<T: Encode> Encode for Vec<T>` (lib.rs:93-102) with an
accept-all writer: the element count as a `usize` header, then each
element's encoding in order. -/
def vecEncode (e : α → List Nat) (xs : List α) : List Nat :=
  numEncode 8 xs.length ++ (xs.map e).flatten

/-- The element loop of `impl<T: Decode> Decode for Vec<T>`
(lib.rs:135-137): `(0..len).map(|_| T::decode(reader)).collect()`,
which decodes `k` elements in order and stops at the first failure. -/
def decodeElems (d : List Nat → DResult α) : Nat → List Nat → DResult (List α)
  | 0, s => .ok [] s
  | k + 1, s =>
    match d s with
    | .ok a r =>
      match decodeElems d k r with
      | .ok as r2 => .ok (a :: as) r2
      | .err e => .err e
      | .crash => .crash
    | .err e => .err e
    | .crash => .crash

/-- `impl<T: Decode> Decode for Vec<T>` (lib.rs:129-141): `read_exact`
an 8-byte `usize` header, then decode that many elements in order. -/
def vecDecode (d : List Nat → DResult α) (s : List Nat) : DResult (List α) :=
  match readExact 8 s with
  | .ok hdr rest => decodeElems d (fromBEBytes hdr) rest
  | .err e => .err e
  | .crash => .crash

/-- Encode generated by `derive_enum` (lib.rs:25-33) with an accept-all
writer, for the variant at zero-based declared position `pos`:
`writer.write(&(Self::Variant as u32).to_be_bytes())`. -/
def enumEncode (pos : Nat) : List Nat :=
  toBEBytes 4 pos

/-- Decode generated by `derive_enum` (lib.rs:35-46) for an enum with
`n` declared variants: `read_exact` a 4-byte header, take the value as a
`u32`; if it equals some variant's position (i.e. is `< n`) return that
variant (modelled by its position), otherwise
`Err(io::Error::from(io::ErrorKind::NotFound))` — an error value that
carries no payload. -/
def enumDecode (n : Nat) (s : List Nat) : DResult Nat :=
  match readExact 4 s with
  | .ok hdr rest =>
    let variant := fromBEBytes hdr
    if variant < n then .ok variant rest else .err .notFound
  | .err e => .err e
  | .crash => .crash

/-! ## Writer model for short-accepting writers

Rust's `Write::write` may accept fewer bytes than offered.  `CapWriter`
models a writer with a remaining byte capacity (e.g. a fixed `&mut [u8]`
slice writer): a `write` call accepts `min cap len` bytes, appends them,
and reports that count — exactly the contract the library's encoders rely
on when they call `write` (not `write_all`) once per buffer. -/

/-- A writer that accepts at most `cap` more bytes; `buf` is all bytes it
has accepted so far. -/
structure CapWriter where
  buf : List Nat
  cap : Nat
deriving DecidableEq

/-- One `writer.write(bytes)` call on a `CapWriter`: accepts
`min cap bytes.length` bytes, returns `Ok(count)` (this writer never
errors), appending the accepted bytes. -/
def capWrite (w : CapWriter) (bytes : List Nat) : Nat × CapWriter :=
  let k := min w.cap bytes.length
  (k, ⟨w.buf ++ bytes.take k, w.cap - k⟩)

/-- `impl_encode_number`'s encode (lib.rs:82-86) against a `CapWriter`:
the single `writer.write(&self.to_be_bytes())?` call, whose reported
count is returned as the `Ok` value unchanged. -/
def numEncodeW (w : CapWriter) (n v : Nat) : Nat × CapWriter :=
  capWrite w (toBEBytes n v)

/-- `derive_enum`'s generated encode (lib.rs:26-32) against a
`CapWriter`: one `writer.write(&(Self::Variant as u32).to_be_bytes())?`
for the variant at declared position `pos`. -/
def enumEncodeW (w : CapWriter) (pos : Nat) : Nat × CapWriter :=
  capWrite w (toBEBytes 4 pos)

/-- `impl Encode for String` (lib.rs:105-110) against a `CapWriter`:
the `usize` length header via the number encode, then one
`writer.write(&self.as_bytes())?` for the body; returns the sum of the
two reported counts. -/
def stringEncodeW (w : CapWriter) (s : List Nat) : Nat × CapWriter :=
  let r1 := numEncodeW w 8 s.length
  let r2 := capWrite r1.2 s
  (r1.1 + r2.1, r2.2)

/-! ## Codecs and the record (struct) derivation

`derive_struct` (lib.rs:51-77) generates, for an ordered field list,
an encode that concatenates the fields' encodings in declared order and
a decode that runs the fields' decodes in declared order on the same
stream, propagating the first failure.  A record with fields
`f1 : T1, ..., fn : Tn` is the iterated pair `(T1, (T2, ...))`, so the
two-field composition below is the general building block. -/

/-- An encode/decode pair for one value type, as a `Codec` trait-object
view: `enc` is encode against an accept-all writer, `dec` is decode. -/
structure Codec (α : Type) where
  enc : α → List Nat
  dec : List Nat → DResult α

/-- `c` round-trips at `x`: decoding any stream that starts with
`c.enc x` succeeds with `x` and consumes exactly the encoding. -/
def RTrip (c : Codec α) (x : α) : Prop :=
  ∀ rest, c.dec (c.enc x ++ rest) = .ok x rest

/-- The codec `derive_struct` generates for two consecutive fields:
encode is `self.f1.encode(writer)? ; self.f2.encode(writer)?` in declared
order; decode is `f1: T1::decode(reader)?, f2: T2::decode(reader)?` in
declared order, failing fast on the first error. -/
def pairCodec (ca : Codec α) (cb : Codec β) : Codec (α × β) where
  enc := fun p => ca.enc p.1 ++ cb.enc p.2
  dec := fun s =>
    match ca.dec s with
    | .ok a r =>
      match cb.dec r with
      | .ok b r2 => .ok (a, b) r2
      | .err e => .err e
      | .crash => .crash
    | .err e => .err e
    | .crash => .crash

/-- The number codec of width `n` bytes as a `Codec`. -/
def numCodec (n : Nat) : Codec Nat where
  enc := numEncode n
  dec := numDecode n

/-- The `Example` record from the repository's test suite
(lib.rs:232-239): an unsigned 128-bit id, three text fields and an
unsigned 16-bit age, encoded field by field in declared order. -/
structure Example where
  id : Nat
  name : List Nat
  address : List Nat
  age : Nat
  phone : List Nat
deriving DecidableEq

/-- `impl Encode for Example` (lib.rs:241-250): each field's encode in
declared order against an accept-all writer. -/
def exampleEncode (x : Example) : List Nat :=
  numEncode 16 x.id ++ stringEncode x.name ++ stringEncode x.address ++
    numEncode 2 x.age ++ stringEncode x.phone

/-- `impl Decode for Example` (lib.rs:252-267): each field's decode in
declared order from the same stream, failing fast on the first error. -/
def exampleDecode (s : List Nat) : DResult Example :=
  match numDecode 16 s with
  | .ok id r1 =>
    match stringDecode r1 with
    | .ok name r2 =>
      match stringDecode r2 with
      | .ok address r3 =>
        match numDecode 2 r3 with
        | .ok age r4 =>
          match stringDecode r4 with
          | .ok phone r5 => .ok ⟨id, name, address, age, phone⟩ r5
          | .err e => .err e
          | .crash => .crash
        | .err e => .err e
        | .crash => .crash
      | .err e => .err e
      | .crash => .crash
    | .err e => .err e
    | .crash => .crash
  | .err e => .err e
  | .crash => .crash

/-! ## Helper lemmas -/

theorem toBEBytes_length (n v : Nat) : (toBEBytes n v).length = n := by
  induction n generalizing v with
  | zero => rfl
  | succ n ih => simp [toBEBytes, ih]

theorem foldl_toBEBytes (n : Nat) : ∀ v acc : Nat,
    (toBEBytes n v).foldl (fun a b => a * 256 + b) acc = acc * 256 ^ n + v % 256 ^ n := by
  induction n with
  | zero => intro v acc; simp [toBEBytes, Nat.mod_one]
  | succ n ih =>
    intro v acc
    rw [toBEBytes, List.foldl_append, ih]
    simp only [List.foldl_cons, List.foldl_nil]
    have h1 : v / 256 % 256 ^ n = v % (256 * 256 ^ n) / 256 :=
      (Nat.mod_mul_right_div_self v 256 (256 ^ n)).symm
    have h2 : v % 256 = v % (256 * 256 ^ n) % 256 :=
      (Nat.mod_mod_of_dvd v ⟨256 ^ n, rfl⟩).symm
    have h3 : 256 * (v % (256 * 256 ^ n) / 256) + v % (256 * 256 ^ n) % 256
        = v % (256 * 256 ^ n) := Nat.div_add_mod _ 256
    have h4 : (256 : Nat) ^ (n + 1) = 256 * 256 ^ n := by ring
    rw [h1, h2, h4]
    set m := v % (256 * 256 ^ n) with hm
    ring_nf
    omega

theorem fromBEBytes_toBEBytes (n v : Nat) (h : v < 256 ^ n) :
    fromBEBytes (toBEBytes n v) = v := by
  unfold fromBEBytes
  rw [foldl_toBEBytes]
  simp [Nat.mod_eq_of_lt h]

theorem readExact_exact (l rest : List Nat) :
    readExact l.length (l ++ rest) = .ok l rest := by
  simp [readExact, List.take_left, List.drop_left]

theorem readExact_short (k : Nat) (s : List Nat) (h : s.length < k) :
    readExact k s = .err .unexpectedEof := by
  simp [readExact, Nat.not_le.mpr h]

theorem numDecode_encode_append (n v : Nat) (rest : List Nat) (h : v < 256 ^ n) :
    numDecode n (numEncode n v ++ rest) = .ok v rest := by
  have hr := readExact_exact (toBEBytes n v) rest
  rw [toBEBytes_length] at hr
  simp [numDecode, numEncode, hr, fromBEBytes_toBEBytes n v h]

theorem stringDecode_encode_append (s extra : List Nat)
    (hval : isValidUtf8 s = true) (hlen : s.length < 256 ^ 8) :
    stringDecode (stringEncode s ++ extra) = .ok s extra := by
  have h1 : stringEncode s ++ extra = toBEBytes 8 s.length ++ (s ++ extra) := by
    simp [stringEncode, numEncode]
  have hr := readExact_exact (toBEBytes 8 s.length) (s ++ extra)
  rw [toBEBytes_length] at hr
  have hf : fromBEBytes (toBEBytes 8 s.length) = s.length :=
    fromBEBytes_toBEBytes 8 _ hlen
  have hr2 := readExact_exact s extra
  simp [stringDecode, h1, hr, hf, hr2, hval]

theorem decodeElems_encode_append (e : α → List Nat) (d : List Nat → DResult α) :
    ∀ (xs : List α) (extra : List Nat),
    (∀ x ∈ xs, ∀ rest, d (e x ++ rest) = .ok x rest) →
    decodeElems d xs.length ((xs.map e).flatten ++ extra) = .ok xs extra := by
  intro xs
  induction xs with
  | nil => intro extra h; simp [decodeElems]
  | cons a as ih =>
    intro extra h
    have ha := h a (List.mem_cons_self a as) ((as.map e).flatten ++ extra)
    have hrec := ih extra (fun x hx rest => h x (List.mem_cons_of_mem a hx) rest)
    simp only [List.map_cons, List.flatten_cons, List.length_cons, List.append_assoc]
    rw [decodeElems, ha]
    simp [hrec]

theorem vecDecode_encode_append (e : α → List Nat) (d : List Nat → DResult α)
    (xs : List α) (extra : List Nat)
    (h : ∀ x ∈ xs, ∀ rest, d (e x ++ rest) = .ok x rest)
    (hlen : xs.length < 256 ^ 8) :
    vecDecode d (vecEncode e xs ++ extra) = .ok xs extra := by
  have h1 : vecEncode e xs ++ extra
      = toBEBytes 8 xs.length ++ ((xs.map e).flatten ++ extra) := by
    simp [vecEncode, numEncode]
  have hr := readExact_exact (toBEBytes 8 xs.length) ((xs.map e).flatten ++ extra)
  rw [toBEBytes_length] at hr
  have hf : fromBEBytes (toBEBytes 8 xs.length) = xs.length :=
    fromBEBytes_toBEBytes 8 _ hlen
  simp [vecDecode, h1, hr, hf, decodeElems_encode_append e d xs extra h]

theorem enumDecode_encode_append (n pos : Nat) (rest : List Nat) (hpos : pos < 2 ^ 32) :
    enumDecode n (enumEncode pos ++ rest)
      = if pos < n then .ok pos rest else .err .notFound := by
  have hr := readExact_exact (toBEBytes 4 pos) rest
  rw [toBEBytes_length] at hr
  have hf : fromBEBytes (toBEBytes 4 pos) = pos := by
    apply fromBEBytes_toBEBytes
    norm_num at hpos ⊢
    omega
  simp [enumDecode, enumEncode, hr, hf]

/-! ## Claim theorems -/

/-- C1: the claim states that decoding a stream whose text body bytes are
not valid UTF-8 must fail with a reported decode error and never crash or
abort.  The code (lib.rs:152) instead calls
`String::from_utf8(buffer_body).unwrap()`, which panics — aborting the
process — on invalid UTF-8.  Evaluated at the failing input (length
header = 1, body = `0xFF`, not valid UTF-8), the decode crashes instead
of returning an error. -/
theorem c1_stringDecode_crashes_on_invalid_utf8 :
    stringDecode [0, 0, 0, 0, 0, 0, 0, 1, 0xFF] = .crash ∧
    isValidUtf8 [0xFF] = false := by decide

/-- C2 counterexample: the claim states the invalid-discriminant error
names (carries) the offending discriminant value.  The code (lib.rs:43)
returns the payload-free `io::Error::from(io::ErrorKind::NotFound)`: for
a two-variant enum, the invalid discriminants 5 and 6 produce the *same*
error value, so the error cannot carry the offending discriminant. -/
theorem c2_enum_error_payload_free :
    enumDecode 2 [0, 0, 0, 5] = .err .notFound ∧
    enumDecode 2 [0, 0, 0, 6] = .err .notFound ∧
    enumDecode 2 [0, 0, 0, 5] = enumDecode 2 [0, 0, 0, 6] := by decide

/-- C2 (amended): for every derived enum with `n` variants and every
decoded 32-bit discriminant `v` that is not a declared variant position
(`n ≤ v`), the generated decode fails with a "not found"-class
invalid-discriminant error (which does not carry the offending value),
and the enum decode never crashes on any input. -/
theorem c2_enum_decode_invalid_discriminant (n v : Nat) (rest : List Nat)
    (hn : n ≤ v) (hv : v < 2 ^ 32) :
    enumDecode n (enumEncode v ++ rest) = .err .notFound ∧
    (∀ s : List Nat, enumDecode n s ≠ .crash) := by
  constructor
  · rw [enumDecode_encode_append n v rest (by norm_num at hv ⊢; omega)]
    simp [Nat.not_lt.mpr hn]
  · intro s
    simp only [enumDecode, readExact]
    by_cases h : 4 ≤ s.length
    · simp only [h, if_true]
      split <;> simp
    · simp [h]

/-- C2 witness. -/
theorem c2_enum_decode_invalid_discriminant_witness :
    enumDecode 2 (enumEncode 5 ++ []) = .err .notFound ∧
    (∀ s : List Nat, enumDecode 2 s ≠ .crash) :=
  c2_enum_decode_invalid_discriminant 2 5 [] (by decide) (by norm_num)

/-- C3: for every supported unsigned integer width (1, 2, 4, 8, 16 bytes,
the platform word being the 8-byte case) and every representable value
`v` of that width, decoding the encoding of `v` yields `v`. -/
theorem c3_num_roundtrip (n v : Nat) (_hn : n ∈ [1, 2, 4, 8, 16])
    (hv : v < 2 ^ (8 * n)) :
    numDecode n (numEncode n v) = .ok v [] := by
  have hv' : v < 256 ^ n := by
    have h28 : (2 : Nat) ^ (8 * n) = 256 ^ n := by
      rw [pow_mul]; norm_num
    omega
  simpa using numDecode_encode_append n v [] hv'

/-- C3 witness. -/
theorem c3_num_roundtrip_witness :
    numDecode 2 (numEncode 2 300) = .ok 300 [] :=
  c3_num_roundtrip 2 300 (by decide) (by norm_num)

/-- C4: for every text value `s` (as its UTF-8 bytes, including the empty
string) decoding the encoding of `s` yields `s`, consuming exactly the
bytes encode wrote: with arbitrary trailing data `extra`, decode returns
`s` and leaves exactly `extra`, and the encoding is the 8-byte length
header plus the `s.length` body bytes. -/
theorem c4_string_roundtrip (s extra : List Nat)
    (hval : isValidUtf8 s = true) (hlen : s.length < 2 ^ 64) :
    stringDecode (stringEncode s ++ extra) = .ok s extra ∧
    (stringEncode s).length = 8 + s.length := by
  have hlen' : s.length < 256 ^ 8 := by norm_num at hlen ⊢; omega
  exact ⟨stringDecode_encode_append s extra hval hlen',
    by simp [stringEncode, numEncode, toBEBytes_length]⟩

/-- C4 witness (the text "hi" with trailing byte 7, and the empty
string). -/
theorem c4_string_roundtrip_witness :
    (stringDecode (stringEncode [104, 105] ++ [7]) = .ok [104, 105] [7] ∧
      (stringEncode [104, 105]).length = 8 + [104, 105].length) ∧
    (stringDecode (stringEncode ([] : List Nat) ++ []) = .ok [] [] ∧
      (stringEncode ([] : List Nat)).length = 8 + ([] : List Nat).length) :=
  ⟨c4_string_roundtrip [104, 105] [7] (by decide) (by norm_num),
   c4_string_roundtrip [] [] (by decide) (by norm_num)⟩

/-- C5: for every sequence of encodable elements whose element codec
round-trips (prefix-stable), including the empty sequence, decoding the
encoding yields the same sequence in the same order and length; and the
empty sequence encodes to a single zero-valued length header with no
element bytes. -/
theorem c5_vec_roundtrip (e : α → List Nat) (d : List Nat → DResult α)
    (xs : List α)
    (h : ∀ x ∈ xs, ∀ rest, d (e x ++ rest) = .ok x rest)
    (hlen : xs.length < 2 ^ 64) :
    vecDecode d (vecEncode e xs) = .ok xs [] ∧
    vecEncode e ([] : List α) = numEncode 8 0 := by
  have hlen' : xs.length < 256 ^ 8 := by norm_num at hlen ⊢; omega
  refine ⟨?_, by simp [vecEncode, numEncode]⟩
  simpa using vecDecode_encode_append e d xs [] h hlen'

/-- C5 witness (the two-element u16 sequence `[1, 500]`). -/
theorem c5_vec_roundtrip_witness :
    vecDecode (numDecode 2) (vecEncode (numEncode 2) [1, 500]) = .ok [1, 500] [] ∧
    vecEncode (numEncode 2) ([] : List Nat) = numEncode 8 0 :=
  c5_vec_roundtrip (numEncode 2) (numDecode 2) [1, 500]
    (by
      intro x hx rest
      fin_cases hx
      · exact numDecode_encode_append 2 1 rest (by norm_num)
      · exact numDecode_encode_append 2 500 rest (by norm_num))
    (by norm_num)

/-- C6: for every record derived from an ordered field list, if every
field value round-trips individually under its own codec, the whole
record round-trips with fields reconstructed in declared order.  A
derived record is the iterated two-field composition `pairCodec`, so
this is the general inductive step: field 1 then field 2, in declared
order, from the same stream. -/
theorem c6_struct_roundtrip (ca : Codec α) (cb : Codec β) (a : α) (b : β)
    (ha : RTrip ca a) (hb : RTrip cb b) :
    RTrip (pairCodec ca cb) (a, b) := by
  intro rest
  show (pairCodec ca cb).dec ((ca.enc a ++ cb.enc b) ++ rest) = .ok (a, b) rest
  rw [List.append_assoc]
  simp [pairCodec, ha (cb.enc b ++ rest), hb rest]

/-- C6 witness: a two-field record (a u16 field holding 300 and a u8
field holding 7) round-trips with a trailing byte left over. -/
theorem c6_struct_roundtrip_witness :
    (pairCodec (numCodec 2) (numCodec 1)).dec
      ((pairCodec (numCodec 2) (numCodec 1)).enc (300, 7) ++ [9]) = .ok (300, 7) [9] :=
  c6_struct_roundtrip (numCodec 2) (numCodec 1) 300 7
    (fun rest => numDecode_encode_append 2 300 rest (by norm_num))
    (fun rest => numDecode_encode_append 1 7 rest (by norm_num)) [9]

/-- C7: the decode generated by `derive_struct` runs the field decodes in
declared order on the same stream: if the first field's decode fails, the
record decode fails with that same error for *every* possible second
field codec (so no later field is attempted and no partial record is
returned); if a later field's decode fails after earlier ones succeed,
the record decode fails with that error; and on success each field is
decoded from the rest of the stream left by its predecessor. -/
theorem c7_struct_decode_failfast (ca : Codec α) (cb : Codec β) (s : List Nat) :
    (∀ e, ca.dec s = .err e → (pairCodec ca cb).dec s = .err e) ∧
    (∀ a r e, ca.dec s = .ok a r → cb.dec r = .err e →
      (pairCodec ca cb).dec s = .err e) ∧
    (∀ a r b r2, ca.dec s = .ok a r → cb.dec r = .ok b r2 →
      (pairCodec ca cb).dec s = .ok (a, b) r2) := by
  refine ⟨?_, ?_, ?_⟩ <;> intros <;> simp_all [pairCodec]

/-- C7 witness: a record of two u16 fields on the 1-byte stream `[5]`:
the first field decode hits end-of-stream and the record decode fails
with exactly that error. -/
theorem c7_struct_decode_failfast_witness :
    (pairCodec (numCodec 2) (numCodec 2)).dec [5] = .err .unexpectedEof :=
  (c7_struct_decode_failfast (numCodec 2) (numCodec 2) [5]).1 .unexpectedEof (by decide)

/-- C8: for every derived enum (nullary variants) and every variant at
zero-based declared position `pos`, the generated encode against a
writer with enough capacity performs a single write of exactly 4 bytes —
the unsigned 32-bit big-endian representation of `pos` (witnessed by its
value reading back as `pos`) — and reports 4 bytes written. -/
theorem c8_enum_encode_discriminant (w : CapWriter) (pos : Nat)
    (hcap : 4 ≤ w.cap) (hpos : pos < 2 ^ 32) :
    (enumEncodeW w pos).1 = 4 ∧
    (enumEncodeW w pos).2.buf = w.buf ++ enumEncode pos ∧
    (enumEncode pos).length = 4 ∧
    fromBEBytes (enumEncode pos) = pos := by
  have hl : (toBEBytes 4 pos).length = 4 := toBEBytes_length 4 pos
  have hmin : min w.cap (toBEBytes 4 pos).length = 4 := by rw [hl]; omega
  refine ⟨?_, ?_, hl, ?_⟩
  · simp [enumEncodeW, capWrite, hmin]
  · have htake : (toBEBytes 4 pos).take 4 = toBEBytes 4 pos := by
      apply List.take_of_length_le
      omega
    simp [enumEncodeW, capWrite, enumEncode, hmin, htake]
  · exact fromBEBytes_toBEBytes 4 pos (by norm_num at hpos ⊢; omega)

/-- C8 witness: variant at position 1 with a capacity-10 writer. -/
theorem c8_enum_encode_discriminant_witness :
    (enumEncodeW ⟨[], 10⟩ 1).1 = 4 ∧
    (enumEncodeW ⟨[], 10⟩ 1).2.buf = ([] : List Nat) ++ enumEncode 1 ∧
    (enumEncode 1).length = 4 ∧
    fromBEBytes (enumEncode 1) = 1 :=
  c8_enum_encode_discriminant ⟨[], 10⟩ 1 (by norm_num) (by norm_num)

/-- C9: decoding any stream holding fewer bytes than the value's minimum
encoding requires yields the end-of-stream error (never a crash, never a
fabricated value): an `n`-byte integer needs `n` bytes, text and
sequences need their 8-byte length header, an enum needs its 4-byte
discriminant. -/
theorem c9_decode_truncated_eof :
    (∀ n s, s.length < n → numDecode n s = .err .unexpectedEof) ∧
    (∀ s : List Nat, s.length < 8 → stringDecode s = .err .unexpectedEof) ∧
    (∀ (α : Type) (d : List Nat → DResult α) (s : List Nat), s.length < 8 →
      vecDecode d s = .err .unexpectedEof) ∧
    (∀ n s, s.length < 4 → enumDecode n s = .err .unexpectedEof) := by
  refine ⟨?_, ?_, ?_, ?_⟩
  · intro n s h; simp [numDecode, readExact_short n s h]
  · intro s h; simp [stringDecode, readExact_short 8 s h]
  · intro α d s h; simp [vecDecode, readExact_short 8 s h]
  · intro n s h; simp [enumDecode, readExact_short 4 s h]

/-- C9 witness: truncated streams for each decoder. -/
theorem c9_decode_truncated_eof_witness :
    numDecode 4 [0, 0] = .err .unexpectedEof ∧
    stringDecode [1, 2, 3] = .err .unexpectedEof ∧
    vecDecode (numDecode 2) [1, 2, 3] = .err .unexpectedEof ∧
    enumDecode 2 [0, 0] = .err .unexpectedEof :=
  ⟨c9_decode_truncated_eof.1 4 [0, 0] (by decide),
   c9_decode_truncated_eof.2.1 [1, 2, 3] (by decide),
   c9_decode_truncated_eof.2.2.1 Nat (numDecode 2) [1, 2, 3] (by decide),
   c9_decode_truncated_eof.2.2.2 2 [0, 0] (by decide)⟩

/-- C10: every encode issues its writes as single unchecked `write` calls
and returns `Ok` with whatever count the writer reports.  Against a
writer whose remaining capacity is smaller than the buffer offered, the
integer and discriminant encodes still succeed, reporting the writer's
smaller count, and only that prefix of the bytes is ever written; a
string encode whose writer accepts the 8-byte header but only `k` bytes
of the body succeeds reporting `8 + k`, silently dropping the rest of
the body. -/
theorem c10_encode_short_write :
    (∀ (w : CapWriter) (n v : Nat), w.cap < n →
      (numEncodeW w n v).1 = w.cap ∧
      (numEncodeW w n v).2.buf = w.buf ++ (toBEBytes n v).take w.cap) ∧
    (∀ (w : CapWriter) (pos : Nat), w.cap < 4 →
      (enumEncodeW w pos).1 = w.cap ∧
      (enumEncodeW w pos).2.buf = w.buf ++ (toBEBytes 4 pos).take w.cap) ∧
    (∀ (w : CapWriter) (s : List Nat) (k : Nat), w.cap = 8 + k → k < s.length →
      (stringEncodeW w s).1 = 8 + k ∧
      (stringEncodeW w s).2.buf = w.buf ++ toBEBytes 8 s.length ++ s.take k) := by
  refine ⟨?_, ?_, ?_⟩
  · intro w n v h
    have hmin : min w.cap (toBEBytes n v).length = w.cap := by
      rw [toBEBytes_length]; omega
    simp [numEncodeW, capWrite, hmin]
  · intro w pos h
    have hmin : min w.cap (toBEBytes 4 pos).length = w.cap := by
      rw [toBEBytes_length]; omega
    simp [enumEncodeW, capWrite, hmin]
  · intro w s k hcap hk
    have hl : (toBEBytes 8 s.length).length = 8 := toBEBytes_length 8 s.length
    have hmin1 : min (8 + k) (toBEBytes 8 s.length).length = 8 := by
      rw [hl]; omega
    have htake : (toBEBytes 8 s.length).take 8 = toBEBytes 8 s.length := by
      apply List.take_of_length_le; omega
    have hmin2 : min k s.length = k := by omega
    simp [stringEncodeW, numEncodeW, capWrite, hcap, hmin1, htake,
      Nat.add_sub_cancel_left, hmin2]

/-- C10 witness: a capacity-2 writer given a 4-byte integer encode
accepts 2 bytes and the encode reports 2; a capacity-9 writer given a
3-byte string body accepts the header plus 1 body byte, reporting 9. -/
theorem c10_encode_short_write_witness :
    ((numEncodeW ⟨[], 2⟩ 4 300).1 = (CapWriter.mk [] 2).cap ∧
      (numEncodeW ⟨[], 2⟩ 4 300).2.buf
        = ([] : List Nat) ++ (toBEBytes 4 300).take (CapWriter.mk [] 2).cap) ∧
    ((stringEncodeW ⟨[], 9⟩ [1, 2, 3]).1 = 8 + 1 ∧
      (stringEncodeW ⟨[], 9⟩ [1, 2, 3]).2.buf
        = ([] : List Nat) ++ toBEBytes 8 [1, 2, 3].length ++ [1, 2, 3].take 1) :=
  ⟨c10_encode_short_write.1 ⟨[], 2⟩ 4 300 (by norm_num),
   c10_encode_short_write.2.2 ⟨[], 9⟩ [1, 2, 3] 1 (by norm_num) (by norm_num)⟩

/-- Supporting instance for the record claims: the test suite's
`Example` record round-trips for arbitrary field values whose strings
are valid UTF-8, with fields reconstructed in declared order. -/
theorem exampleDecode_encode_append (x : Example) (extra : List Nat)
    (hid : x.id < 256 ^ 16) (hage : x.age < 256 ^ 2)
    (hname : isValidUtf8 x.name = true) (haddr : isValidUtf8 x.address = true)
    (hphone : isValidUtf8 x.phone = true)
    (hln : x.name.length < 256 ^ 8) (hla : x.address.length < 256 ^ 8)
    (hlp : x.phone.length < 256 ^ 8) :
    exampleDecode (exampleEncode x ++ extra) = .ok x extra := by
  have e1 := numDecode_encode_append 16 x.id
    (stringEncode x.name ++ (stringEncode x.address ++
      (numEncode 2 x.age ++ (stringEncode x.phone ++ extra)))) hid
  have e2 := stringDecode_encode_append x.name
    (stringEncode x.address ++ (numEncode 2 x.age ++
      (stringEncode x.phone ++ extra))) hname hln
  have e3 := stringDecode_encode_append x.address
    (numEncode 2 x.age ++ (stringEncode x.phone ++ extra)) haddr hla
  have e4 := numDecode_encode_append 2 x.age (stringEncode x.phone ++ extra) hage
  have e5 := stringDecode_encode_append x.phone extra hphone hlp
  simp only [exampleEncode, List.append_assoc]
  simp [exampleDecode, e1, e2, e3, e4, e5]
